import Mathlib

/-!
Verification of the libgit2 `git2/oid.h` interface (object-identifier codec
and OID shortener).  The repository source tree contains only the header
`src/include/git2/oid.h`; the implementations live in `src/oid.c`, which is
absent.  Every operation below is therefore modelled from the specification
and the header's documentation comments.

Conventions of the shallow embedding:
* a C byte / `char` is a `Nat` (its unsigned value);
* a C string is a `List Nat` of the bytes before the NUL terminator;
* a `git_oid` holds its 20 raw bytes as a `List Nat`;
* fallible operations return the C error code (`Int`) together with the
  resulting state, or an `Option`.
-/

set_option autoImplicit false

namespace Git2

/-- Size (in bytes) of a raw/binary oid, from the header. -/
def GIT_OID_RAWSZ : Nat := 20

/-- Size (in bytes) of a hex formatted oid, from the header. -/
def GIT_OID_HEXSZ : Nat := 40

/-- Minimum length (in hex characters) of an oid abbreviation, from the header. -/
def GIT_OID_MINPREFIXLEN : Nat := 4

/-- Modelled from the spec: the success return code (`common.h` is not in the
source tree).  The header documents `GIT_SUCCESS if valid`. -/
def GIT_SUCCESS : Int := 0

/-- Modelled from the spec: the `InvalidFormat` error code for malformed hex
input (`common.h` is not in the source tree).  The header documents
`GIT_ENOTOID on failure`. -/
def GIT_ENOTOID : Int := -2

/-- Modelled from the spec: the memory-exhaustion error code
(`common.h` is not in the source tree).  The header documents that exceeding
the shortener's capacity also "will result in a GIT_ENOMEM error". -/
def GIT_ENOMEM : Int := -4

/-- Unique identity of any object: 20 raw bytes, per the header's `git_oid`. -/
structure git_oid where
  id : List Nat
  deriving DecidableEq, Repr

/-- Modelled from the spec: lowercase hex digit for a nibble value
(`format_hex(id)`: "lowercase hex"). -/
def hexDigit (v : Nat) : Nat :=
  if v < 10 then 48 + v else 87 + v

/-- Modelled from the spec: value of one hex character, `none` when the byte
is not a hex digit.  The spec admits "lowercase/mixed-case hex ASCII text". -/
def fromHexDigit (c : Nat) : Option Nat :=
  if 48 ≤ c ∧ c ≤ 57 then some (c - 48)
  else if 97 ≤ c ∧ c ≤ 102 then some (c - 87)
  else if 65 ≤ c ∧ c ≤ 70 then some (c - 55)
  else none

/-- Hex expansion of a byte list: each byte yields its high then low nibble. -/
def toNibs : List Nat → List Nat
  | [] => []
  | b :: rest => b / 16 :: b % 16 :: toNibs rest

/-- Hex characters of a byte list, high nibble of each byte first. -/
def fmtBytes : List Nat → List Nat
  | [] => []
  | b :: rest => hexDigit (b / 16) :: hexDigit (b % 16) :: fmtBytes rest

/-- Modelled from the spec: `git_oid_fmt` (`src/oid.c` is not in the source
tree) — "Format a git_oid into a hex string", 40 lowercase hex characters,
no terminator written. -/
def git_oid_fmt (oid : git_oid) : List Nat :=
  fmtBytes oid.id

/-- Modelled from the spec: `git_oid_mkraw` (`src/oid.c` is not in the source
tree) — "Copy an already raw oid into a git_oid structure": a direct copy of
20 bytes. -/
def git_oid_mkraw (raw : List Nat) : git_oid :=
  ⟨raw.take GIT_OID_RAWSZ⟩

/-- Parse exactly `n` hex characters into their nibble values; `none` if a
character is not a hex digit or the input is too short. -/
def parseNibbles : Nat → List Nat → Option (List Nat)
  | 0, _ => some []
  | _ + 1, [] => none
  | n + 1, c :: rest =>
    match fromHexDigit c, parseNibbles n rest with
    | some v, some vs => some (v :: vs)
    | _, _ => none

/-- Combine a nibble list pairwise into bytes (high nibble first). -/
def pairUp : List Nat → List Nat
  | a :: b :: rest => (a * 16 + b) :: pairUp rest
  | _ => []

/-- Modelled from the spec: `git_oid_mkstr` (`src/oid.c` is not in the source
tree) — parse a 40-character hex string into a `git_oid`; `GIT_ENOTOID` if any
required character is not a hex digit, and per the spec a failed parse "never
partially mutates state", so the output oid `out` is returned unchanged on
failure. -/
def git_oid_mkstr (out : git_oid) (str : List Nat) : Int × git_oid :=
  match parseNibbles GIT_OID_HEXSZ str with
  | some ns => (GIT_SUCCESS, ⟨pairUp ns⟩)
  | none => (GIT_ENOTOID, out)

/-- The 40 hex-digit values (nibbles) of an oid, high nibble of each byte
first. -/
def oidNibbles (oid : git_oid) : List Nat :=
  toNibs oid.id

/-- Modelled from the spec: `git_oid_ncmp` (`src/oid.c` is not in the source
tree) — "Compare the first len hexadecimal characters (packets of 4 bits) of
two oid structures", returning 0 in case of a match: true iff the first
`len` hex digits are identical. -/
def git_oid_ncmp (len : Nat) (a b : git_oid) : Int :=
  if (oidNibbles a).take len = (oidNibbles b).take len then 0 else 1

/-- Modelled from the spec: `git_oid_to_string` (`src/oid.c` is not in the
source tree).  The inputs are the nullness of the output buffer, the buffer
size `n`, and the (possibly null) oid; the result is the content of the
returned NUL-terminated C string.  On any input-parameter error (null buffer,
`n == 0`, null oid) it returns the empty string; otherwise the hex form
truncated to `min (n-1) 40` characters. -/
def git_oid_to_string (outIsNull : Bool) (n : Nat) (oid : Option git_oid) : List Nat :=
  if outIsNull ∨ n = 0 ∨ oid = none then []
  else
    match oid with
    | some o => (git_oid_fmt o).take (min (n - 1) GIT_OID_HEXSZ)
    | none => []

/-- Modelled from the spec: `git_oid_allocfmt` (`src/oid.c` is not in the
source tree) — format into a newly allocated NUL-terminated string, `NULL` if
memory is exhausted.  Allocation success is an explicit boolean input;
the result is the content of the allocated C string, `none` standing for the
`NULL` return. -/
def git_oid_allocfmt (allocOk : Bool) (oid : git_oid) : Option (List Nat) :=
  if allocOk then some (git_oid_fmt oid) else none

/-- Modelled from the spec: the Nibble Trie (`src/oid.c` is not in the source
tree) — "a radix tree keyed on 4-bit (hexadecimal digit) symbols"; each node
has up to 16 children, one per hex digit value, kept here as an association
list from digit to child. -/
inductive Trie where
  | node : List (Nat × Trie) → Trie

/-- Look up the child of a trie node for digit `d`. -/
def findChild (d : Nat) : List (Nat × Trie) → Option Trie
  | [] => none
  | (k, t) :: rest => if k = d then some t else findChild d rest

/-- Replace the child for digit `d` in a node's child list. -/
def setChild (d : Nat) (t' : Trie) : List (Nat × Trie) → List (Nat × Trie)
  | [] => []
  | (k, t) :: rest => if k = d then (k, t') :: rest else (k, t) :: setChild d t' rest

/-- A chain of pass-through nodes carrying the digit sequence `ds`. -/
def passThrough : List Nat → Trie
  | [] => .node []
  | d :: ds => .node [(d, passThrough ds)]

/-- Does the trie contain a node at the end of path `p`? -/
def hasPathAux : List Nat → Trie → Bool
  | [], _ => true
  | d :: ds, .node cs =>
    match findChild d cs with
    | some t => hasPathAux ds t
    | none => false

/-- Modelled from the spec: trie insertion, spec section 4.2 (`src/oid.c` is
not in the source tree).  Walk the digits from the root; descend through
present children; at the first absent child create it, and if the current
node "already had ≥ 1 other child before this creation" report the branch
depth `depth + 1`; the remaining digits are materialised as a pass-through
chain and the walk stops.  Returns the new trie and the reported branch
depth, if any. -/
def insertAux : List Nat → Nat → Trie → Trie × Option Nat
  | [], _, t => (t, none)
  | d :: ds, depth, .node cs =>
    match findChild d cs with
    | some t =>
      let r := insertAux ds (depth + 1) t
      (.node (setChild d r.fst cs), r.snd)
    | none =>
      (.node (cs ++ [(d, passThrough ds)]),
       if cs.isEmpty then none else some (depth + 1))

/-- Modelled from the spec: the hard capacity ceiling on the number of OIDs
in one shortener (`src/oid.c` is not in the source tree); the header and the
spec both give "around ~22000". -/
def CAPACITY_LIMIT : Nat := 22000

/-- Modelled from the spec: the Shortener Controller state, spec section 3
(`src/oid.c` is not in the source tree): the owned nibble trie, the
configured floor `min_length`, the running `current_minimum_length`, and the
insertion `count`. -/
structure git_oid_shorten where
  trie : Trie
  min_length : Nat
  current_minimum_length : Nat
  count : Nat

/-- Modelled from the spec: `git_oid_shorten_new` (`src/oid.c` is not in the
source tree) — "`min_length` clamped to [1, 40]. Initializes an empty trie
and `current_minimum_length := min_length`." -/
def git_oid_shorten_new (min_length : Nat) : git_oid_shorten :=
  let m := max 1 (min min_length GIT_OID_HEXSZ)
  ⟨.node [], m, m, 0⟩

/-- Modelled from the spec: `git_oid_shorten_add` (`src/oid.c` is not in the
source tree), spec section 4.3.  Decode the 40-character hex text
(`GIT_ENOTOID` on malformed input, no mutation); if `count` has reached
`CAPACITY_LIMIT`, fail with `GIT_ENOMEM` and perform no mutation; otherwise
insert into the trie, raise `current_minimum_length` to any branch depth the
insertion reports, increment `count`, and return the updated
`current_minimum_length`. -/
def git_oid_shorten_add (os : git_oid_shorten) (text_oid : List Nat) :
    Int × git_oid_shorten :=
  match parseNibbles GIT_OID_HEXSZ text_oid with
  | none => (GIT_ENOTOID, os)
  | some ds =>
    if os.count = CAPACITY_LIMIT then (GIT_ENOMEM, os)
    else
      let r := insertAux ds 0 os.trie
      let cur : Nat := match r.snd with
        | some k => max os.current_minimum_length k
        | none => os.current_minimum_length
      (Int.ofNat cur, ⟨r.fst, os.min_length, cur, os.count + 1⟩)

/-- Run a sequence of `git_oid_shorten_add` calls, collecting the return
values. -/
def runAdds (os : git_oid_shorten) : List (List Nat) → git_oid_shorten × List Int
  | [] => (os, [])
  | t :: ts =>
    let r := git_oid_shorten_add os t
    let rest := runAdds r.snd ts
    (rest.fst, r.fst :: rest.snd)

/-- The digit sequences actually inserted by one `git_oid_shorten_add` call
(empty on a failing call). -/
def addedOne (os : git_oid_shorten) (t : List Nat) : List (List Nat) :=
  match parseNibbles GIT_OID_HEXSZ t with
  | none => []
  | some ds => if os.count = CAPACITY_LIMIT then [] else [ds]

/-- The digit sequences successfully inserted along a run of
`git_oid_shorten_add` calls. -/
def insertedDigits (os : git_oid_shorten) : List (List Nat) → List (List Nat)
  | [] => []
  | t :: ts => addedOne os t ++ insertedDigits (git_oid_shorten_add os t).snd ts

/-- `IsPre p y`: the list `p` is an initial segment of `y`. -/
def IsPre (p y : List Nat) : Prop :=
  ∃ q, p ++ q = y

/-- Length of the longest common initial segment of two digit sequences. -/
def lcp : List Nat → List Nat → Nat
  | a :: as, b :: bs => if a = b then lcp as bs + 1 else 0
  | _, _ => 0

/-- Largest `lcp x y` over `y` in `S` (0 when `S` is empty). -/
def maxLcp (x : List Nat) : List (List Nat) → Nat
  | [] => 0
  | y :: rest => max (lcp x y) (maxLcp x rest)

/-- Largest `lcp x y + 1` over members `y` of `S` that differ from `x`
(0 when there is none). -/
def maxColl (x : List Nat) : List (List Nat) → Nat
  | [] => 0
  | y :: rest => max (if y = x then 0 else lcp x y + 1) (maxColl x rest)

/-- Largest `lcp x y + 1` over pairs of distinct members of `S`
(0 when there is no such pair): the prefix length needed to tell every
member of `S` from every other. -/
def pairMax : List (List Nat) → Nat
  | [] => 0
  | x :: rest => max (maxColl x rest) (pairMax rest)

/-- The tails, beyond leading digit `d`, of the members of `S` that start
with `d`. -/
def childSet (d : Nat) (S : List (List Nat)) : List (List Nat) :=
  S.filterMap fun y =>
    match y with
    | [] => none
    | e :: ys => if e = d then some ys else none

/-- `Models t S`: the nonempty paths present in the trie `t` are exactly the
nonempty initial segments of members of `S`. -/
def Models (t : Trie) (S : List (List Nat)) : Prop :=
  ∀ p, p ≠ [] → (hasPathAux p t = true ↔ ∃ y ∈ S, IsPre p y)

/-- The invariant tying a shortener controller to the multiset `S` of digit
sequences inserted so far: the trie models `S`, members of `S` are 40 digits
long, and `current_minimum_length` is the configured floor raised to the
deepest pairwise disambiguation depth of `S`. -/
def GoodState (os : git_oid_shorten) (S : List (List Nat)) : Prop :=
  Models os.trie S ∧ (∀ y ∈ S, y.length = GIT_OID_HEXSZ) ∧
    os.current_minimum_length = max os.min_length (pairMax S)

theorem fromHexDigit_hexDigit (v : Nat) (h : v < 16) :
    fromHexDigit (hexDigit v) = some v := by
  simp only [hexDigit, fromHexDigit]
  split_ifs <;> (congr 1; omega)

theorem parseNibbles_nil (n : Nat) : parseNibbles (n + 1) [] = none := rfl

theorem parseNibbles_succ (n c : Nat) (rest : List Nat) :
    parseNibbles (n + 1) (c :: rest) =
      (fromHexDigit c).bind fun v => (parseNibbles n rest).map (v :: ·) := by
  simp only [parseNibbles]
  cases fromHexDigit c <;> cases parseNibbles n rest <;> rfl

theorem parseNibbles_length :
    ∀ (n : Nat) (s l : List Nat), parseNibbles n s = some l → l.length = n := by
  intro n
  induction n with
  | zero =>
    intro s l h
    simp only [parseNibbles, Option.some.injEq] at h
    simp [← h]
  | succ n ih =>
    intro s l h
    cases s with
    | nil => rw [parseNibbles_nil] at h; exact Option.noConfusion h
    | cons c rest =>
      rw [parseNibbles_succ] at h
      rcases hfc : fromHexDigit c with _ | v <;> rw [hfc] at h
      · simp at h
      · rcases hp : parseNibbles n rest with _ | vs <;> rw [hp] at h
        · simp at h
        · simp only [Option.some_bind', Option.map_some', Option.some.injEq] at h
          subst h
          simp [ih rest vs hp]

theorem parseNibbles_eq_none_iff :
    ∀ (n : Nat) (s : List Nat), n ≤ s.length →
      (parseNibbles n s = none ↔ ∃ c ∈ s.take n, fromHexDigit c = none) := by
  intro n
  induction n with
  | zero => intro s _; simp [parseNibbles]
  | succ n ih =>
    intro s hn
    cases s with
    | nil => simp at hn
    | cons c rest =>
      rw [parseNibbles_succ]
      rcases hfc : fromHexDigit c with _ | v
      · simp [hfc]
      · have hr : n ≤ rest.length := by simpa using hn
        simp only [Option.some_bind', Option.map_eq_none', List.take_succ_cons,
          List.mem_cons]
        rw [ih rest hr]
        constructor
        · rintro ⟨x, hx, hbad⟩
          exact ⟨x, Or.inr hx, hbad⟩
        · rintro ⟨x, hx | hx, hbad⟩
          · subst hx; simp [hfc] at hbad
          · exact ⟨x, hx, hbad⟩

theorem parseNibbles_fmtBytes :
    ∀ bs : List Nat, (∀ x ∈ bs, x < 256) →
      parseNibbles (2 * bs.length) (fmtBytes bs) = some (toNibs bs) := by
  intro bs
  induction bs with
  | nil => intro _; rfl
  | cons b rest ih =>
    intro hb
    have h1 : fromHexDigit (hexDigit (b / 16)) = some (b / 16) :=
      fromHexDigit_hexDigit _ (by have := hb b (by simp); omega)
    have h2 : fromHexDigit (hexDigit (b % 16)) = some (b % 16) :=
      fromHexDigit_hexDigit _ (Nat.mod_lt _ (by norm_num))
    have harith : 2 * (b :: rest).length = 2 * rest.length + 1 + 1 := by
      simp [List.length_cons]; ring
    rw [harith]
    simp only [fmtBytes, parseNibbles_succ, h1, h2, Option.bind_some,
      ih (fun x hx => hb x (by simp [hx])), Option.map_some]
    simp [toNibs]

theorem pairUp_toNibs : ∀ bs : List Nat, pairUp (toNibs bs) = bs := by
  intro bs
  induction bs with
  | nil => rfl
  | cons b rest ih =>
    simp only [toNibs, pairUp, ih, List.cons.injEq, and_true]
    omega

theorem toNibs_length : ∀ bs : List Nat, (toNibs bs).length = 2 * bs.length := by
  intro bs
  induction bs with
  | nil => rfl
  | cons b rest ih => simp [toNibs, ih]; ring

theorem fmtBytes_length : ∀ bs : List Nat, (fmtBytes bs).length = 2 * bs.length := by
  intro bs
  induction bs with
  | nil => rfl
  | cons b rest ih => simp [fmtBytes, ih]; ring

theorem toNibs_inj : ∀ {xs ys : List Nat}, toNibs xs = toNibs ys → xs = ys := by
  intro xs
  induction xs with
  | nil =>
    intro ys h
    cases ys with
    | nil => rfl
    | cons y ys => simp [toNibs] at h
  | cons x xs ih =>
    intro ys h
    cases ys with
    | nil => simp [toNibs] at h
    | cons y ys =>
      simp only [toNibs, List.cons.injEq] at h
      obtain ⟨h1, h2, h3⟩ := h
      have hxy : x = y := by omega
      simp [hxy, ih h3]

theorem toNibs_take_odd : ∀ (bs : List Nat) (m : Nat), m < bs.length →
    (toNibs bs).take (2 * m + 1) = toNibs (bs.take m) ++ [bs.getD m 0 / 16] := by
  intro bs
  induction bs with
  | nil => intro m hm; simp at hm
  | cons b rest ih =>
    intro m hm
    cases m with
    | zero => simp [toNibs]
    | succ m' =>
      have harith : 2 * (m' + 1) + 1 = 2 * m' + 1 + 1 + 1 := by ring
      rw [harith]
      simp only [toNibs, List.take_succ_cons, List.getD_cons_succ, List.take]
      rw [ih m' (by simpa using hm)]
      simp [toNibs]

/-- C4: for every 20-byte value `b`, constructing an identifier from `b`
(`git_oid_mkraw`), formatting it to 40 hex characters (`git_oid_fmt`), and
parsing that text back (`git_oid_mkstr`) succeeds and yields an identifier
equal to the one constructed from `b`. -/
theorem mkstr_fmt_mkraw_roundtrip (b : List Nat) (out : git_oid)
    (hl : b.length = GIT_OID_RAWSZ) (hb : ∀ x ∈ b, x < 256) :
    git_oid_mkstr out (git_oid_fmt (git_oid_mkraw b)) = (GIT_SUCCESS, git_oid_mkraw b) := by
  have htake : b.take GIT_OID_RAWSZ = b := List.take_of_length_le (le_of_eq hl)
  have hparse : parseNibbles GIT_OID_HEXSZ (fmtBytes b) = some (toNibs b) := by
    have h := parseNibbles_fmtBytes b hb
    rw [hl] at h
    exact h
  unfold git_oid_mkraw git_oid_fmt git_oid_mkstr
  simp only [htake, hparse]
  simp [pairUp_toNibs]

/-- Witness for C4 at a concrete 20-byte value. -/
theorem mkstr_fmt_mkraw_roundtrip_witness :
    (List.replicate 20 171).length = GIT_OID_RAWSZ ∧
      (∀ x ∈ List.replicate 20 171, x < 256) ∧
      git_oid_mkstr ⟨[]⟩ (git_oid_fmt (git_oid_mkraw (List.replicate 20 171))) =
        (GIT_SUCCESS, git_oid_mkraw (List.replicate 20 171)) :=
  ⟨by decide, by decide,
    mkstr_fmt_mkraw_roundtrip (List.replicate 20 171) ⟨[]⟩ (by decide) (by decide)⟩

/-- C5: for an input text holding at least the 40 required characters,
`git_oid_mkstr` fails with `GIT_ENOTOID` iff at least one of the first 40
characters is not a valid hexadecimal digit; a failed parse leaves the output
identifier unchanged; and the only other outcome is `GIT_SUCCESS`. -/
theorem mkstr_invalid_iff (out : git_oid) (str : List Nat)
    (h : GIT_OID_HEXSZ ≤ str.length) :
    ((git_oid_mkstr out str).fst = GIT_ENOTOID ↔
        ∃ c ∈ str.take GIT_OID_HEXSZ, fromHexDigit c = none) ∧
      ((git_oid_mkstr out str).fst = GIT_ENOTOID → (git_oid_mkstr out str).snd = out) ∧
      ((git_oid_mkstr out str).fst ≠ GIT_ENOTOID →
        (git_oid_mkstr out str).fst = GIT_SUCCESS) := by
  have hiff := parseNibbles_eq_none_iff GIT_OID_HEXSZ str h
  unfold git_oid_mkstr
  rcases hp : parseNibbles GIT_OID_HEXSZ str with _ | ns
  · rw [hp] at hiff
    simp only [true_iff] at hiff
    exact ⟨by simpa using hiff, fun _ => rfl, fun hne => absurd rfl hne⟩
  · rw [hp] at hiff
    have hnone : ¬∃ c ∈ str.take GIT_OID_HEXSZ, fromHexDigit c = none := by
      rw [← hiff]; simp
    have hne : GIT_SUCCESS ≠ GIT_ENOTOID := by decide
    exact ⟨by simpa [hne] using hnone, fun hx => absurd hx hne, fun _ => rfl⟩

/-- Witness for C5 at a concrete 40-character input containing a non-hex
character. -/
theorem mkstr_invalid_iff_witness :
    GIT_OID_HEXSZ ≤ (List.replicate 40 103).length ∧
      ((git_oid_mkstr ⟨[]⟩ (List.replicate 40 103)).fst = GIT_ENOTOID ↔
        ∃ c ∈ (List.replicate 40 103).take GIT_OID_HEXSZ, fromHexDigit c = none) :=
  ⟨by decide, (mkstr_invalid_iff ⟨[]⟩ (List.replicate 40 103) (by decide)).1⟩

/-- C6: for identifiers of 20 bytes and an odd length `len ≤ 40`,
`git_oid_ncmp` reports a match iff the first `(len - 1) / 2` full bytes are
equal and the high nibbles of the middle byte are equal, ignoring that
byte's low nibble. -/
theorem ncmp_odd_iff (a b : git_oid) (len : Nat)
    (ha : a.id.length = GIT_OID_RAWSZ) (hb : b.id.length = GIT_OID_RAWSZ)
    (hodd : len % 2 = 1) (hlen : len ≤ GIT_OID_HEXSZ) :
    git_oid_ncmp len a b = 0 ↔
      (a.id.take ((len - 1) / 2) = b.id.take ((len - 1) / 2) ∧
        a.id.getD ((len - 1) / 2) 0 / 16 = b.id.getD ((len - 1) / 2) 0 / 16) := by
  have h20 : GIT_OID_RAWSZ = 20 := rfl
  have h40 : GIT_OID_HEXSZ = 40 := rfl
  set m := (len - 1) / 2 with hm
  have hlen2 : len = 2 * m + 1 := by omega
  have hma : m < a.id.length := by rw [ha, h20]; rw [h40] at hlen; omega
  have hmb : m < b.id.length := by rw [hb, h20]; rw [h40] at hlen; omega
  unfold git_oid_ncmp oidNibbles
  rw [hlen2, toNibs_take_odd a.id m hma, toNibs_take_odd b.id m hmb]
  by_cases hc :
      toNibs (a.id.take m) ++ [a.id.getD m 0 / 16] =
        toNibs (b.id.take m) ++ [b.id.getD m 0 / 16]
  · have hlens : (toNibs (a.id.take m)).length = (toNibs (b.id.take m)).length := by
      rw [toNibs_length, toNibs_length, List.length_take, List.length_take, ha, hb]
    obtain ⟨h1, h2⟩ := List.append_inj hc hlens
    rw [if_pos hc]
    exact iff_of_true rfl ⟨toNibs_inj h1, by simpa using h2⟩
  · rw [if_neg hc]
    constructor
    · intro h01; exact absurd h01 (by norm_num)
    · rintro ⟨h1, h2⟩; exact absurd (by rw [h1, h2]) hc

/-- Witness for C6 at concrete identifiers sharing 7 leading nibbles. -/
theorem ncmp_odd_iff_witness :
    (git_oid_mkraw (List.replicate 20 171)).id.length = GIT_OID_RAWSZ ∧
      (git_oid_mkraw (171 :: 171 :: 171 :: 172 :: List.replicate 16 0)).id.length =
        GIT_OID_RAWSZ ∧
      7 % 2 = 1 ∧ 7 ≤ GIT_OID_HEXSZ ∧
      (git_oid_ncmp 7 (git_oid_mkraw (List.replicate 20 171))
          (git_oid_mkraw (171 :: 171 :: 171 :: 172 :: List.replicate 16 0)) = 0 ↔
        ((git_oid_mkraw (List.replicate 20 171)).id.take ((7 - 1) / 2) =
            (git_oid_mkraw (171 :: 171 :: 171 :: 172 :: List.replicate 16 0)).id.take
              ((7 - 1) / 2) ∧
          (git_oid_mkraw (List.replicate 20 171)).id.getD ((7 - 1) / 2) 0 / 16 =
            (git_oid_mkraw (171 :: 171 :: 171 :: 172 :: List.replicate 16 0)).id.getD
              ((7 - 1) / 2) 0 / 16)) :=
  ⟨by decide, by decide, by decide, by decide,
    ncmp_odd_iff _ _ 7 (by decide) (by decide) (by decide) (by decide)⟩

/-- C8: if `git_oid_ncmp` reports a match on the first `k` hex digits, it
reports a match on the first `k'` hex digits for every `k' < k`. -/
theorem ncmp_mono (a b : git_oid) (k k' : Nat) (hk : k' < k)
    (h : git_oid_ncmp k a b = 0) : git_oid_ncmp k' a b = 0 := by
  unfold git_oid_ncmp at h ⊢
  by_cases hc : (oidNibbles a).take k = (oidNibbles b).take k
  · have htk : (oidNibbles a).take k' = (oidNibbles b).take k' := by
      have hta : (oidNibbles a).take k' = ((oidNibbles a).take k).take k' := by
        rw [List.take_take]; congr 1; omega
      have htb : (oidNibbles b).take k' = ((oidNibbles b).take k).take k' := by
        rw [List.take_take]; congr 1; omega
      rw [hta, htb, hc]
    simp [htk]
  · simp [hc] at h

/-- Witness for C8 at equal concrete identifiers and `k' = 3 < k = 9`. -/
theorem ncmp_mono_witness :
    3 < 9 ∧
      git_oid_ncmp 9 (git_oid_mkraw (List.replicate 20 7))
        (git_oid_mkraw (List.replicate 20 7)) = 0 ∧
      git_oid_ncmp 3 (git_oid_mkraw (List.replicate 20 7))
        (git_oid_mkraw (List.replicate 20 7)) = 0 :=
  ⟨by decide, by decide,
    ncmp_mono (git_oid_mkraw (List.replicate 20 7))
      (git_oid_mkraw (List.replicate 20 7)) 9 3 (by decide) (by decide)⟩

/-- C7: the bounded formatter `git_oid_to_string` is total; on null buffer,
zero size, or null oid it yields the empty string; otherwise it writes the
hex form truncated to `min (n - 1) 40` characters (the NUL terminator being
implicit in the C-string model), so `n = 5` yields a 4-character hex
prefix. -/
theorem to_string_spec (outNull : Bool) (n : Nat) (o : git_oid)
    (ho : o.id.length = GIT_OID_RAWSZ) :
    git_oid_to_string true n (some o) = [] ∧
      git_oid_to_string outNull 0 (some o) = [] ∧
      git_oid_to_string outNull n none = [] ∧
      (outNull = false → n ≠ 0 →
        git_oid_to_string outNull n (some o) =
            (git_oid_fmt o).take (min (n - 1) GIT_OID_HEXSZ) ∧
          (git_oid_to_string outNull n (some o)).length = min (n - 1) GIT_OID_HEXSZ) ∧
      (outNull = false →
        git_oid_to_string outNull 5 (some o) = (git_oid_fmt o).take 4 ∧
          (git_oid_to_string outNull 5 (some o)).length = 4) := by
  have hfmt : (git_oid_fmt o).length = 40 := by
    unfold git_oid_fmt
    rw [fmtBytes_length, ho]
    decide
  have h40 : GIT_OID_HEXSZ = 40 := rfl
  have hmain : ∀ k : Nat, k ≠ 0 → git_oid_to_string false k (some o) =
      (git_oid_fmt o).take (min (k - 1) GIT_OID_HEXSZ) := by
    intro k hk
    simp [git_oid_to_string, hk]
  refine ⟨by simp [git_oid_to_string], by simp [git_oid_to_string],
    by simp [git_oid_to_string], ?_, ?_⟩
  · intro h1 h2
    subst h1
    refine ⟨hmain n h2, ?_⟩
    rw [hmain n h2, List.length_take, hfmt]
    omega
  · intro h1
    subst h1
    have he : git_oid_to_string false 5 (some o) = (git_oid_fmt o).take 4 := by
      rw [hmain 5 (by norm_num)]
      congr 1
    refine ⟨he, ?_⟩
    rw [he, List.length_take, hfmt]
    decide

/-- Witness for C7 at a concrete identifier and `n = 5`. -/
theorem to_string_spec_witness :
    (git_oid_mkraw (List.replicate 20 171)).id.length = GIT_OID_RAWSZ ∧
      git_oid_to_string true 5 (some (git_oid_mkraw (List.replicate 20 171))) = [] ∧
      git_oid_to_string false 0 (some (git_oid_mkraw (List.replicate 20 171))) = [] ∧
      git_oid_to_string false 5 none = [] ∧
      (false = false → (5 : Nat) ≠ 0 →
        git_oid_to_string false 5 (some (git_oid_mkraw (List.replicate 20 171))) =
            (git_oid_fmt (git_oid_mkraw (List.replicate 20 171))).take
              (min (5 - 1) GIT_OID_HEXSZ) ∧
          (git_oid_to_string false 5
              (some (git_oid_mkraw (List.replicate 20 171)))).length =
            min (5 - 1) GIT_OID_HEXSZ) ∧
      (false = false →
        git_oid_to_string false 5 (some (git_oid_mkraw (List.replicate 20 171))) =
            (git_oid_fmt (git_oid_mkraw (List.replicate 20 171))).take 4 ∧
          (git_oid_to_string false 5
              (some (git_oid_mkraw (List.replicate 20 171)))).length = 4) :=
  ⟨by decide, to_string_spec false 5 (git_oid_mkraw (List.replicate 20 171)) (by decide)⟩

/-- C10: `git_oid_allocfmt` returns, when allocation succeeds, exactly the 40
characters that `git_oid_fmt` writes for the same identifier, and returns
`NULL` only when memory is exhausted. -/
theorem allocfmt_spec (ok : Bool) (o : git_oid) (ho : o.id.length = GIT_OID_RAWSZ) :
    (∀ s, git_oid_allocfmt ok o = some s →
        s = git_oid_fmt o ∧ s.length = GIT_OID_HEXSZ) ∧
      (git_oid_allocfmt ok o = none → ok = false) := by
  have hfmt : (git_oid_fmt o).length = GIT_OID_HEXSZ := by
    unfold git_oid_fmt
    rw [fmtBytes_length, ho]
    decide
  cases ok <;> simp [git_oid_allocfmt, hfmt]

theorem add_cur_mono (os : git_oid_shorten) (t : List Nat) :
    os.current_minimum_length ≤
      (git_oid_shorten_add os t).snd.current_minimum_length := by
  unfold git_oid_shorten_add
  rcases hp : parseNibbles GIT_OID_HEXSZ t with _ | ds
  · exact le_refl _
  · by_cases hfull : os.count = CAPACITY_LIMIT
    · simp [hfull]
    · simp only [hfull, if_false]
      rcases h2 : (insertAux ds 0 os.trie).snd with _ | k <;> simp [h2]

theorem add_fst_success (os : git_oid_shorten) (t : List Nat)
    (h : 0 ≤ (git_oid_shorten_add os t).fst) :
    (git_oid_shorten_add os t).fst =
      Int.ofNat (git_oid_shorten_add os t).snd.current_minimum_length := by
  unfold git_oid_shorten_add at h ⊢
  rcases hp : parseNibbles GIT_OID_HEXSZ t with _ | ds <;> rw [hp] at h
  · simp [GIT_ENOTOID] at h
  · by_cases hfull : os.count = CAPACITY_LIMIT
    · simp [hfull, GIT_ENOMEM] at h
    · simp [hfull]

theorem add_snd_fail (os : git_oid_shorten) (t : List Nat)
    (h : (git_oid_shorten_add os t).fst < 0) :
    (git_oid_shorten_add os t).snd = os := by
  unfold git_oid_shorten_add at h ⊢
  rcases hp : parseNibbles GIT_OID_HEXSZ t with _ | ds
  · rfl
  · rw [hp] at h
    by_cases hfull : os.count = CAPACITY_LIMIT
    · simp [hfull]
    · simp [hfull] at h
      omega

theorem runAdds_chain_aux : ∀ (ts : List (List Nat)) (os : git_oid_shorten),
    List.Chain' (· ≤ ·) ((runAdds os ts).snd.filter fun v => decide (0 ≤ v)) ∧
      ∀ v ∈ (runAdds os ts).snd.filter fun v => decide (0 ≤ v),
        Int.ofNat os.current_minimum_length ≤ v := by
  intro ts
  induction ts with
  | nil =>
    intro os
    constructor
    · simp [runAdds]
    · intro v hv; simp [runAdds] at hv
  | cons t ts ih =>
    intro os
    obtain ⟨ihc, ihb⟩ := ih (git_oid_shorten_add os t).snd
    simp only [runAdds]
    by_cases hs : (0 : Int) ≤ (git_oid_shorten_add os t).fst
    · rw [List.filter_cons_of_pos (by simpa using hs)]
      have hfst := add_fst_success os t hs
      have hmono := add_cur_mono os t
      constructor
      · rw [List.chain'_cons']
        refine ⟨?_, ihc⟩
        intro b hb
        have hbmem := List.mem_of_mem_head? hb
        have hble := ihb b hbmem
        rw [hfst]
        exact hble
      · intro v hv
        rcases List.mem_cons.mp hv with h1 | h1
        · subst h1
          rw [hfst]
          exact Int.ofNat_le.mpr hmono
        · exact le_trans (Int.ofNat_le.mpr hmono) (ihb v h1)
    · rw [List.filter_cons_of_neg (by simpa using hs)]
      have hsnd : (git_oid_shorten_add os t).snd = os := add_snd_fail os t (by omega)
      rw [hsnd] at ihc ihb ⊢
      exact ⟨ihc, ihb⟩

/-- C1: for any sequence of insert calls on one shortener controller
instance, the successfully returned minimal lengths (the non-negative return
values) form a non-decreasing sequence. -/
theorem shorten_returns_monotone (os : git_oid_shorten) (ts : List (List Nat)) :
    List.Chain' (· ≤ ·) ((runAdds os ts).snd.filter fun v => decide (0 ≤ v)) :=
  (runAdds_chain_aux ts os).1

/-- C3: at the capacity ceiling, the next insert of a well-formed
40-hex-digit text fails with the out-of-capacity error code and performs no
mutation: the whole state (count, trie, current_minimum_length) is returned
unchanged. -/
theorem shorten_add_at_capacity (os : git_oid_shorten) (text ds : List Nat)
    (hparse : parseNibbles GIT_OID_HEXSZ text = some ds)
    (hfull : os.count = CAPACITY_LIMIT) :
    git_oid_shorten_add os text = (GIT_ENOMEM, os) := by
  unfold git_oid_shorten_add
  rw [hparse]
  simp [hfull]

/-- Witness for C3 at a concrete full controller and a valid text. -/
theorem shorten_add_at_capacity_witness :
    parseNibbles GIT_OID_HEXSZ (List.replicate 40 48) = some (List.replicate 40 0) ∧
      (git_oid_shorten.mk (Trie.node []) 4 4 CAPACITY_LIMIT).count = CAPACITY_LIMIT ∧
      git_oid_shorten_add (git_oid_shorten.mk (Trie.node []) 4 4 CAPACITY_LIMIT)
          (List.replicate 40 48) =
        (GIT_ENOMEM, git_oid_shorten.mk (Trie.node []) 4 4 CAPACITY_LIMIT) :=
  ⟨by decide, rfl,
    shorten_add_at_capacity (git_oid_shorten.mk (Trie.node []) 4 4 CAPACITY_LIMIT)
      (List.replicate 40 48) (List.replicate 40 0) (by decide) rfl⟩

/-- C9: the capacity-exhaustion failure of `git_oid_shorten_add` returns
`GIT_ENOMEM`, the code that denotes memory exhaustion, so a caller cannot
distinguish capacity exhaustion from a true out-of-memory failure by the
return value alone. -/
theorem shorten_add_capacity_is_enomem (os : git_oid_shorten) (text ds : List Nat)
    (hparse : parseNibbles GIT_OID_HEXSZ text = some ds)
    (hfull : os.count = CAPACITY_LIMIT) :
    (git_oid_shorten_add os text).fst = GIT_ENOMEM := by
  unfold git_oid_shorten_add
  rw [hparse]
  simp [hfull]

/-- Witness for C9 at a concrete full controller. -/
theorem shorten_add_capacity_is_enomem_witness :
    parseNibbles GIT_OID_HEXSZ (List.replicate 40 97) = some (List.replicate 40 10) ∧
      (git_oid_shorten.mk (Trie.node []) 7 7 CAPACITY_LIMIT).count = CAPACITY_LIMIT ∧
      (git_oid_shorten_add (git_oid_shorten.mk (Trie.node []) 7 7 CAPACITY_LIMIT)
          (List.replicate 40 97)).fst = GIT_ENOMEM :=
  ⟨by decide, rfl,
    shorten_add_capacity_is_enomem (git_oid_shorten.mk (Trie.node []) 7 7 CAPACITY_LIMIT)
      (List.replicate 40 97) (List.replicate 40 10) (by decide) rfl⟩

/-- Witness for C10 at a concrete identifier with allocation succeeding. -/
theorem allocfmt_spec_witness :
    (git_oid_mkraw (List.replicate 20 171)).id.length = GIT_OID_RAWSZ ∧
      ((∀ s, git_oid_allocfmt true (git_oid_mkraw (List.replicate 20 171)) = some s →
          s = git_oid_fmt (git_oid_mkraw (List.replicate 20 171)) ∧
            s.length = GIT_OID_HEXSZ) ∧
        (git_oid_allocfmt true (git_oid_mkraw (List.replicate 20 171)) = none →
          true = false)) :=
  ⟨by decide, allocfmt_spec true (git_oid_mkraw (List.replicate 20 171)) (by decide)⟩

theorem isPre_nil_left (y : List Nat) : IsPre [] y :=
  ⟨y, rfl⟩

theorem isPre_cons_iff (a b : Nat) (p y : List Nat) :
    IsPre (a :: p) (b :: y) ↔ a = b ∧ IsPre p y := by
  constructor
  · rintro ⟨q, hq⟩
    rw [List.cons_append] at hq
    injection hq with h1 h2
    exact ⟨h1, q, h2⟩
  · rintro ⟨hab, q, hq⟩
    exact ⟨q, by rw [List.cons_append, hab, hq]⟩

theorem not_isPre_cons_nil (a : Nat) (p : List Nat) : ¬ IsPre (a :: p) [] := by
  rintro ⟨q, hq⟩
  simp at hq

theorem isPre_nil_right (p : List Nat) : IsPre p [] ↔ p = [] := by
  constructor
  · rintro ⟨q, hq⟩
    simpa using List.append_eq_nil.mp hq |>.1
  · rintro rfl
    exact ⟨[], rfl⟩

theorem lcp_nil_right (x : List Nat) : lcp x [] = 0 := by
  cases x <;> rfl

theorem lcp_nil_left (y : List Nat) : lcp [] y = 0 := by
  cases y <;> rfl

theorem lcp_cons_cons (a b : Nat) (as bs : List Nat) :
    lcp (a :: as) (b :: bs) = if a = b then lcp as bs + 1 else 0 := rfl

theorem lcp_comm : ∀ x y : List Nat, lcp x y = lcp y x := by
  intro x
  induction x with
  | nil => intro y; rw [lcp_nil_left, lcp_nil_right]
  | cons a as ih =>
    intro y
    cases y with
    | nil => rw [lcp_nil_left, lcp_nil_right]
    | cons b bs =>
      rw [lcp_cons_cons, lcp_cons_cons]
      by_cases hab : a = b
      · subst hab; simp [ih bs]
      · rw [if_neg hab, if_neg (fun h => hab h.symm)]

theorem hasPathAux_nil (t : Trie) : hasPathAux [] t = true := rfl

theorem hasPathAux_cons (d : Nat) (ds : List Nat) (cs : List (Nat × Trie)) :
    hasPathAux (d :: ds) (.node cs) =
      match findChild d cs with
      | some t => hasPathAux ds t
      | none => false := rfl

theorem mem_childSet {d : Nat} {S : List (List Nat)} {ys : List Nat} :
    ys ∈ childSet d S ↔ (d :: ys) ∈ S := by
  unfold childSet
  rw [List.mem_filterMap]
  constructor
  · rintro ⟨y, hy, hf⟩
    cases y with
    | nil => simp at hf
    | cons e ys' =>
      by_cases he : e = d
      · subst he
        simp only [if_true, Option.some.injEq] at hf
        rw [← hf]
        exact hy
      · simp [he] at hf
  · intro h
    exact ⟨d :: ys, h, by simp⟩

theorem findChild_none_no_start {cs : List (Nat × Trie)} {S : List (List Nat)}
    {d : Nat} (h : Models (.node cs) S) (hf : findChild d cs = none) :
    ∀ ys, (d :: ys) ∉ S := by
  intro ys hmem
  have hpath : hasPathAux [d] (.node cs) = true :=
    (h [d] (by simp)).mpr ⟨d :: ys, hmem, ⟨ys, rfl⟩⟩
  rw [hasPathAux_cons, hf] at hpath
  exact Bool.noConfusion hpath

theorem findChild_some_of_mem {cs : List (Nat × Trie)} {S : List (List Nat)}
    {d : Nat} {ys : List Nat} (h : Models (.node cs) S) (hmem : (d :: ys) ∈ S) :
    ∃ t', findChild d cs = some t' := by
  have hpath : hasPathAux [d] (.node cs) = true :=
    (h [d] (by simp)).mpr ⟨d :: ys, hmem, ⟨ys, rfl⟩⟩
  rw [hasPathAux_cons] at hpath
  rcases hf : findChild d cs with _ | t'
  · rw [hf] at hpath; exact Bool.noConfusion hpath
  · exact ⟨t', rfl⟩

theorem isEmpty_false_of_findChild {cs : List (Nat × Trie)} {e : Nat} {t' : Trie}
    (hf : findChild e cs = some t') : cs.isEmpty = false := by
  cases cs with
  | nil => simp [findChild] at hf
  | cons p rest => rfl

theorem models_child {cs : List (Nat × Trie)} {S : List (List Nat)} {d : Nat}
    {t' : Trie} (h : Models (.node cs) S) (hf : findChild d cs = some t') :
    Models t' (childSet d S) := by
  intro p _
  have hstep : hasPathAux p t' = hasPathAux (d :: p) (.node cs) := by
    rw [hasPathAux_cons, hf]
  rw [hstep, h (d :: p) (by simp)]
  constructor
  · rintro ⟨y, hy, hpre⟩
    cases y with
    | nil => exact absurd hpre (not_isPre_cons_nil _ _)
    | cons e ys =>
      rw [isPre_cons_iff] at hpre
      obtain ⟨hde, hpre⟩ := hpre
      subst hde
      exact ⟨ys, mem_childSet.mpr hy, hpre⟩
  · rintro ⟨ys, hys, hpre⟩
    exact ⟨d :: ys, mem_childSet.mp hys, (isPre_cons_iff _ _ _ _).mpr ⟨rfl, hpre⟩⟩

theorem childSet_nil_of_no_child {cs : List (Nat × Trie)} {S : List (List Nat)}
    {d : Nat} (h : Models (.node cs) S) (hf : findChild d cs = none) :
    childSet d S = [] := by
  rcases hcs : childSet d S with _ | ⟨ys, rest⟩
  · rfl
  · have hmem : ys ∈ childSet d S := by rw [hcs]; simp
    exact absurd (mem_childSet.mp hmem) (findChild_none_no_start h hf ys)

theorem hasPathAux_cons_some {d : Nat} {ds : List Nat} {cs : List (Nat × Trie)}
    {t : Trie} (hf : findChild d cs = some t) :
    hasPathAux (d :: ds) (.node cs) = hasPathAux ds t := by
  rw [hasPathAux_cons, hf]

theorem hasPathAux_cons_none {d : Nat} {ds : List Nat} {cs : List (Nat × Trie)}
    (hf : findChild d cs = none) :
    hasPathAux (d :: ds) (.node cs) = false := by
  rw [hasPathAux_cons, hf]

theorem findChild_singleton_same (d : Nat) (t : Trie) :
    findChild d [(d, t)] = some t := by
  simp [findChild]

theorem findChild_singleton_other {d e : Nat} (h : d ≠ e) (t : Trie) :
    findChild e [(d, t)] = none := by
  simp [findChild, h]

theorem insertAux_cons_none {d : Nat} {ds : List Nat} {depth : Nat}
    {cs : List (Nat × Trie)} (hf : findChild d cs = none) :
    insertAux (d :: ds) depth (.node cs) =
      (.node (cs ++ [(d, passThrough ds)]),
        if cs.isEmpty then none else some (depth + 1)) := by
  simp only [insertAux, hf]

theorem insertAux_cons_some {d : Nat} {ds : List Nat} {depth : Nat}
    {cs : List (Nat × Trie)} {t' : Trie} (hf : findChild d cs = some t') :
    insertAux (d :: ds) depth (.node cs) =
      (.node (setChild d (insertAux ds (depth + 1) t').fst cs),
        (insertAux ds (depth + 1) t').snd) := by
  simp only [insertAux, hf]

theorem hasPathAux_passThrough : ∀ (ds p : List Nat),
    hasPathAux p (passThrough ds) = true ↔ IsPre p ds := by
  intro ds
  induction ds with
  | nil =>
    intro p
    cases p with
    | nil => simpa [hasPathAux_nil] using isPre_nil_left ([] : List Nat)
    | cons e ps =>
      show hasPathAux (e :: ps) (.node []) = true ↔ _
      rw [hasPathAux_cons_none (by simp [findChild])]
      simpa using not_isPre_cons_nil e ps
  | cons d ds' ih =>
    intro p
    cases p with
    | nil => simpa [hasPathAux_nil] using isPre_nil_left (d :: ds')
    | cons e ps =>
      show hasPathAux (e :: ps) (.node [(d, passThrough ds')]) = true ↔ _
      by_cases hde : d = e
      · subst hde
        rw [hasPathAux_cons_some (findChild_singleton_same d (passThrough ds'))]
        rw [ih ps, isPre_cons_iff]
        simp
      · rw [hasPathAux_cons_none (findChild_singleton_other hde (passThrough ds'))]
        rw [isPre_cons_iff]
        constructor
        · intro hcon; exact absurd hcon (by simp)
        · rintro ⟨hed, _⟩; exact absurd hed.symm hde

theorem findChild_append (e d : Nat) (cs : List (Nat × Trie)) (t' : Trie) :
    findChild e (cs ++ [(d, t')]) =
      match findChild e cs with
      | some t => some t
      | none => if d = e then some t' else none := by
  induction cs with
  | nil => simp [findChild]
  | cons p rest ih =>
    obtain ⟨k, t⟩ := p
    by_cases hk : k = e <;> simp [findChild, hk, ih]

theorem findChild_setChild_self (d : Nat) (t' : Trie) :
    ∀ cs : List (Nat × Trie), (∃ t0, findChild d cs = some t0) →
      findChild d (setChild d t' cs) = some t' := by
  intro cs
  induction cs with
  | nil => rintro ⟨t0, h⟩; simp [findChild] at h
  | cons p rest ih =>
    obtain ⟨k, t⟩ := p
    rintro ⟨t0, h⟩
    by_cases hk : k = d
    · simp [setChild, findChild, hk]
    · have h2 : findChild d rest = some t0 := by
        rw [findChild, if_neg hk] at h
        exact h
      simp only [setChild, if_neg hk, findChild]
      exact ih ⟨t0, h2⟩

theorem findChild_setChild_other (d e : Nat) (hne : e ≠ d) (t' : Trie) :
    ∀ cs : List (Nat × Trie), findChild e (setChild d t' cs) = findChild e cs := by
  intro cs
  induction cs with
  | nil => rfl
  | cons p rest ih =>
    obtain ⟨k, t⟩ := p
    by_cases hk : k = d
    · subst hk
      simp only [setChild, if_pos rfl, findChild]
      rw [if_neg (fun h => hne h.symm), if_neg (fun h => hne h.symm)]
    · simp only [setChild, if_neg hk, findChild]
      by_cases hke : k = e
      · rw [if_pos hke, if_pos hke]
      · rw [if_neg hke, if_neg hke]
        exact ih

theorem hasPath_insertAux : ∀ (x : List Nat) (depth : Nat) (t : Trie) (p : List Nat),
    hasPathAux p (insertAux x depth t).fst = true ↔
      (hasPathAux p t = true ∨ IsPre p x) := by
  intro x
  induction x with
  | nil =>
    intro depth t p
    constructor
    · exact fun h => Or.inl h
    · rintro (h | hpre)
      · exact h
      · rw [(isPre_nil_right p).mp hpre]
        exact hasPathAux_nil t
  | cons d ds ih =>
    intro depth t p
    cases t with
    | node cs =>
      rcases hf : findChild d cs with _ | t'
      · rw [insertAux_cons_none hf]
        cases p with
        | nil => simp [hasPathAux_nil]
        | cons e ps =>
          show hasPathAux (e :: ps) (.node (cs ++ [(d, passThrough ds)])) = true ↔
            (hasPathAux (e :: ps) (.node cs) = true ∨ IsPre (e :: ps) (d :: ds))
          rcases hfe : findChild e cs with _ | te
          · by_cases hde : d = e
            · subst hde
              have hfc : findChild d (cs ++ [(d, passThrough ds)]) =
                  some (passThrough ds) := by
                rw [findChild_append, hfe]
                simp
              rw [hasPathAux_cons_some hfc, hasPathAux_cons_none hfe,
                hasPathAux_passThrough, isPre_cons_iff]
              simp
            · have hfc : findChild e (cs ++ [(d, passThrough ds)]) = none := by
                rw [findChild_append, hfe]
                simp [hde]
              rw [hasPathAux_cons_none hfc, hasPathAux_cons_none hfe, isPre_cons_iff]
              constructor
              · intro hcon; exact absurd hcon (by simp)
              · rintro (hcon | ⟨hed, _⟩)
                · exact absurd hcon (by simp)
                · exact absurd hed.symm hde
          · have hde : d ≠ e := by
              intro hdd; rw [hdd, hfe] at hf; exact Option.noConfusion hf
            have hfc : findChild e (cs ++ [(d, passThrough ds)]) = some te := by
              rw [findChild_append, hfe]
            rw [hasPathAux_cons_some hfc, hasPathAux_cons_some hfe, isPre_cons_iff]
            constructor
            · exact fun h1 => Or.inl h1
            · rintro (h1 | ⟨hed, _⟩)
              · exact h1
              · exact absurd hed.symm hde
      · rw [insertAux_cons_some hf]
        cases p with
        | nil => simp [hasPathAux_nil]
        | cons e ps =>
          show hasPathAux (e :: ps)
              (.node (setChild d (insertAux ds (depth + 1) t').fst cs)) = true ↔
            (hasPathAux (e :: ps) (.node cs) = true ∨ IsPre (e :: ps) (d :: ds))
          by_cases hde : e = d
          · subst hde
            rw [hasPathAux_cons_some
                (findChild_setChild_self e (insertAux ds (depth + 1) t').fst cs ⟨t', hf⟩),
              hasPathAux_cons_some hf, ih (depth + 1) t' ps, isPre_cons_iff]
            simp
          · have hfc := findChild_setChild_other d e hde
              (insertAux ds (depth + 1) t').fst cs
            rcases hfe : findChild e cs with _ | te
            · rw [hasPathAux_cons_none (by rw [hfc, hfe]),
                hasPathAux_cons_none hfe, isPre_cons_iff]
              constructor
              · intro hcon; exact absurd hcon (by simp)
              · rintro (hcon | ⟨hed, _⟩)
                · exact absurd hcon (by simp)
                · exact absurd hed hde
            · rw [hasPathAux_cons_some (show findChild e
                    (setChild d (insertAux ds (depth + 1) t').fst cs) = some te by
                  rw [hfc, hfe]),
                hasPathAux_cons_some hfe, isPre_cons_iff]
              constructor
              · exact fun h1 => Or.inl h1
              · rintro (h1 | ⟨hed, _⟩)
                · exact h1
                · exact absurd hed hde

theorem models_insert {t : Trie} {S : List (List Nat)} (x : List Nat) (depth : Nat)
    (h : Models t S) : Models (insertAux x depth t).fst (S ++ [x]) := by
  intro p hp
  rw [hasPath_insertAux x depth t p, h p hp]
  constructor
  · rintro (⟨y, hy, hpre⟩ | hpre)
    · exact ⟨y, by simp [hy], hpre⟩
    · exact ⟨x, by simp, hpre⟩
  · rintro ⟨y, hy, hpre⟩
    rcases List.mem_append.mp hy with h1 | h1
    · exact Or.inl ⟨y, h1, hpre⟩
    · have hyx : y = x := by simpa using h1
      subst hyx
      exact Or.inr hpre

theorem models_nil_empty {t : Trie} (h : Models t []) :
    ∃ cs, t = .node cs ∧ cs = [] := by
  cases t with
  | node cs =>
    refine ⟨cs, rfl, ?_⟩
    cases cs with
    | nil => rfl
    | cons p rest =>
      obtain ⟨k, t'⟩ := p
      have hpath : hasPathAux [k] (.node ((k, t') :: rest)) = true := by
        rw [hasPathAux_cons_some (show findChild k ((k, t') :: rest) = some t' by
          simp [findChild])]
        exact hasPathAux_nil t'
      obtain ⟨y, hy, _⟩ := (h [k] (by simp)).mp hpath
      simp at hy

theorem insertAux_snd_empty {t : Trie} (h : Models t []) (x : List Nat)
    (depth : Nat) : (insertAux x depth t).snd = none := by
  obtain ⟨cs, rfl, rfl⟩ := models_nil_empty h
  cases x with
  | nil => rfl
  | cons d ds => simp [insertAux, findChild]

theorem maxLcp_eq_zero {x : List Nat} {S : List (List Nat)}
    (h : ∀ y ∈ S, lcp x y = 0) : maxLcp x S = 0 := by
  induction S with
  | nil => rfl
  | cons y rest ih =>
    simp only [maxLcp]
    rw [h y (by simp), ih (fun z hz => h z (by simp [hz]))]
    omega

theorem maxLcp_zero_of_childSet_nil {d : Nat} {ds : List Nat} {S : List (List Nat)}
    (h : childSet d S = []) : maxLcp (d :: ds) S = 0 := by
  apply maxLcp_eq_zero
  intro z hz
  cases z with
  | nil => exact lcp_nil_right _
  | cons f zs =>
    rw [lcp_cons_cons]
    by_cases hdf : d = f
    · subst hdf
      have hmem : zs ∈ childSet d S := mem_childSet.mpr hz
      rw [h] at hmem
      simp at hmem
    · rw [if_neg hdf]

theorem maxLcp_cons_childSet (d : Nat) (ds : List Nat) :
    ∀ S : List (List Nat), childSet d S ≠ [] →
      maxLcp (d :: ds) S = maxLcp ds (childSet d S) + 1 := by
  intro S
  induction S with
  | nil => intro hne; simp [childSet] at hne
  | cons y rest ih =>
    intro hne
    cases y with
    | nil =>
      have hcs : childSet d ([] :: rest) = childSet d rest := by simp [childSet]
      rw [hcs] at hne ⊢
      simp only [maxLcp, lcp_nil_right]
      rw [ih hne]
      omega
    | cons e ys =>
      by_cases hed : e = d
      · have hcs : childSet d ((e :: ys) :: rest) = ys :: childSet d rest := by
          simp [childSet, hed]
        rw [hcs]
        simp only [maxLcp, lcp_cons_cons]
        rw [if_pos hed.symm]
        by_cases hrest : childSet d rest = []
        · rw [maxLcp_zero_of_childSet_nil hrest, hrest]
          simp [maxLcp]
        · rw [ih hrest]
          omega
      · have hcs : childSet d ((e :: ys) :: rest) = childSet d rest := by
          simp [childSet, hed]
        rw [hcs] at hne ⊢
        simp only [maxLcp, lcp_cons_cons]
        rw [if_neg (fun h => hed h.symm), ih hne]
        omega

theorem le_maxColl {x y : List Nat} {S : List (List Nat)}
    (hy : y ∈ S) (hne : y ≠ x) : lcp x y + 1 ≤ maxColl x S := by
  induction S with
  | nil => simp at hy
  | cons z rest ih =>
    simp only [maxColl]
    rcases List.mem_cons.mp hy with h1 | h1
    · subst h1
      rw [if_neg hne]
      omega
    · have := ih h1
      omega

theorem maxColl_le_pairMax {x : List Nat} {S : List (List Nat)} (hx : x ∈ S) :
    maxColl x S ≤ pairMax S := by
  induction S with
  | nil => simp at hx
  | cons z rest ih =>
    simp only [pairMax, maxColl]
    rcases List.mem_cons.mp hx with h1 | h1
    · subst h1
      rw [if_pos rfl]
      omega
    · have h2 := ih h1
      by_cases hzx : z = x
      · rw [if_pos hzx]
        subst hzx
        omega
      · rw [if_neg hzx]
        have h3 : lcp x z + 1 ≤ maxColl z rest := by
          rw [lcp_comm]
          exact le_maxColl h1 (fun hxz => hzx hxz.symm)
        omega

theorem maxColl_eq_of_not_mem {x : List Nat} :
    ∀ {S : List (List Nat)}, S ≠ [] → x ∉ S → maxColl x S = maxLcp x S + 1 := by
  intro S
  induction S with
  | nil => intro h _; exact absurd rfl h
  | cons z rest ih =>
    intro _ hx
    have hzx : z ≠ x := fun h => hx (by simp [h.symm])
    have hxrest : x ∉ rest := fun h => hx (by simp [h])
    simp only [maxColl, maxLcp, if_neg hzx]
    by_cases hrest : rest = []
    · subst hrest
      simp [maxColl, maxLcp]
    · rw [ih hrest hxrest]
      omega

theorem maxColl_cons_ite (x z : List Nat) (rest : List (List Nat)) :
    maxColl x (z :: rest) =
      max (if z = x then 0 else lcp x z + 1) (maxColl x rest) := rfl

theorem maxColl_append_one (z : List Nat) :
    ∀ (S : List (List Nat)) (x : List Nat),
      maxColl z (S ++ [x]) =
        max (maxColl z S) (if x = z then 0 else lcp z x + 1) := by
  intro S
  induction S with
  | nil => intro x; simp [maxColl]
  | cons w rest ih =>
    intro x
    rw [List.cons_append, maxColl_cons_ite, maxColl_cons_ite, ih x]
    omega

theorem pairMax_append (S : List (List Nat)) (x : List Nat) :
    pairMax (S ++ [x]) = max (pairMax S) (maxColl x S) := by
  induction S with
  | nil => simp [pairMax, maxColl]
  | cons z rest ih =>
    rw [List.cons_append]
    simp only [pairMax]
    rw [ih, maxColl_append_one z rest x, maxColl_cons_ite x z rest]
    have hsym : (if x = z then 0 else lcp z x + 1) =
        (if z = x then 0 else lcp x z + 1) := by
      by_cases h : x = z
      · rw [if_pos h, if_pos h.symm]
      · rw [if_neg h, if_neg (fun h2 => h h2.symm), lcp_comm]
    rw [hsym]
    omega

theorem pairMax_pair_le {S : List (List Nat)} {x y : List Nat}
    (hx : x ∈ S) (hy : y ∈ S) (hne : x ≠ y) : lcp x y + 1 ≤ pairMax S :=
  le_trans (le_maxColl hy (fun h => hne h.symm)) (maxColl_le_pairMax hx)

theorem maxColl_attain {x : List Nat} :
    ∀ {S : List (List Nat)}, 0 < maxColl x S →
      ∃ y ∈ S, y ≠ x ∧ lcp x y + 1 = maxColl x S := by
  intro S
  induction S with
  | nil => intro h; simp [maxColl] at h
  | cons z rest ih =>
    intro h
    rw [maxColl_cons_ite] at h ⊢
    by_cases hcmp : maxColl x rest < (if z = x then 0 else lcp x z + 1)
    · have hz : z ≠ x := by
        intro hzx
        rw [if_pos hzx] at hcmp
        omega
      refine ⟨z, by simp, hz, ?_⟩
      rw [if_neg hz] at hcmp ⊢
      omega
    · have h0 : 0 < maxColl x rest := by
        by_cases hzx : z = x
        · rw [if_pos hzx] at h; omega
        · rw [if_neg hzx] at h hcmp; omega
      obtain ⟨y, hy, hyx, heq⟩ := ih h0
      exact ⟨y, by simp [hy], hyx, by omega⟩

theorem pairMax_attain :
    ∀ {S : List (List Nat)}, 0 < pairMax S →
      ∃ x ∈ S, ∃ y ∈ S, x ≠ y ∧ lcp x y + 1 = pairMax S := by
  intro S
  induction S with
  | nil => intro h; simp [pairMax] at h
  | cons z rest ih =>
    intro h
    simp only [pairMax] at h ⊢
    by_cases hcmp : pairMax rest < maxColl z rest
    · have h0 : 0 < maxColl z rest := by omega
      obtain ⟨y, hy, hyz, heq⟩ := maxColl_attain h0
      exact ⟨z, by simp, y, by simp [hy], fun hzy => hyz hzy.symm, by omega⟩
    · have h0 : 0 < pairMax rest := by omega
      obtain ⟨x, hx, y, hy, hne, heq⟩ := ih h0
      exact ⟨x, by simp [hx], y, by simp [hy], hne, by omega⟩

theorem take_lcp_eq : ∀ x y : List Nat, x.take (lcp x y) = y.take (lcp x y) := by
  intro x
  induction x with
  | nil => intro y; rw [lcp_nil_left]; simp
  | cons a as ih =>
    intro y
    cases y with
    | nil => rw [lcp_nil_right]; simp
    | cons b bs =>
      rw [lcp_cons_cons]
      by_cases hab : a = b
      · rw [if_pos hab]
        simp only [List.take_succ_cons, hab, ih bs]
      · rw [if_neg hab]
        simp

theorem take_ne_of_lcp_lt : ∀ {x y : List Nat} {k : Nat},
    x ≠ y → x.length = y.length → lcp x y < k → x.take k ≠ y.take k := by
  intro x
  induction x with
  | nil =>
    intro y k hne hlen _
    cases y with
    | nil => exact absurd rfl hne
    | cons b bs => simp at hlen
  | cons a as ih =>
    intro y k hne hlen hlt
    cases y with
    | nil => simp at hlen
    | cons b bs =>
      rw [lcp_cons_cons] at hlt
      by_cases hab : a = b
      · rw [if_pos hab] at hlt
        subst hab
        have hask : as ≠ bs := fun h => hne (by rw [h])
        cases k with
        | zero => omega
        | succ k' =>
          simp only [List.take_succ_cons]
          intro hc
          injection hc with _ hc2
          exact ih hask (by simpa using hlen) (by omega) hc2
      · rw [if_neg hab] at hlt
        cases k with
        | zero => omega
        | succ k' =>
          simp only [List.take_succ_cons]
          intro hc
          injection hc with hc1 _
          exact hab hc1

theorem insertAux_snd_mem : ∀ (x : List Nat) (t : Trie) (S : List (List Nat))
    (depth : Nat), Models t S → x ∈ S → (insertAux x depth t).snd = none := by
  intro x
  induction x with
  | nil => intro t S depth _ _; rfl
  | cons d ds ih =>
    intro t S depth h hmem
    cases t with
    | node cs =>
      obtain ⟨t', hf⟩ := findChild_some_of_mem h hmem
      rw [insertAux_cons_some hf]
      exact ih t' (childSet d S) (depth + 1) (models_child h hf)
        (mem_childSet.mpr hmem)

theorem insertAux_snd_new : ∀ (x : List Nat) (t : Trie) (S : List (List Nat))
    (depth : Nat), Models t S → (∀ y ∈ S, y.length = x.length) → x ∉ S →
    S ≠ [] → (insertAux x depth t).snd = some (depth + maxLcp x S + 1) := by
  intro x
  induction x with
  | nil =>
    intro t S depth _ hlen hnot hne
    obtain ⟨y, hy⟩ := List.exists_mem_of_ne_nil S hne
    have hy0 : y = [] := List.length_eq_zero.mp (hlen y hy)
    subst hy0
    exact absurd hy hnot
  | cons d ds ih =>
    intro t S depth h hlen hnot hne
    cases t with
    | node cs =>
      rcases hf : findChild d cs with _ | t'
      · obtain ⟨y, hy⟩ := List.exists_mem_of_ne_nil S hne
        cases y with
        | nil => have := hlen [] hy; simp at this
        | cons e ys =>
          obtain ⟨te, hfe⟩ := findChild_some_of_mem h hy
          have hcs : cs.isEmpty = false := isEmpty_false_of_findChild hfe
          have hmax : maxLcp (d :: ds) S = 0 :=
            maxLcp_zero_of_childSet_nil (childSet_nil_of_no_child h hf)
          rw [insertAux_cons_none hf]
          show (if cs.isEmpty then none else some (depth + 1)) = _
          rw [hcs, hmax]
          rfl
      · have hS' : childSet d S ≠ [] := by
          have hpath : hasPathAux [d] (.node cs) = true := by
            rw [hasPathAux_cons_some hf]
            exact hasPathAux_nil t'
          obtain ⟨y, hy, hpre⟩ := (h [d] (by simp)).mp hpath
          cases y with
          | nil => exact absurd hpre (not_isPre_cons_nil _ _)
          | cons e ys =>
            rw [isPre_cons_iff] at hpre
            obtain ⟨hde, _⟩ := hpre
            intro hemp
            have hmem : ys ∈ childSet d S := mem_childSet.mpr (hde ▸ hy)
            rw [hemp] at hmem
            simp at hmem
        have hlen' : ∀ ys ∈ childSet d S, ys.length = ds.length := by
          intro ys hys
          have := hlen (d :: ys) (mem_childSet.mp hys)
          simpa using this
        have hnot' : ds ∉ childSet d S := fun hc => hnot (mem_childSet.mp hc)
        rw [insertAux_cons_some hf]
        show (insertAux ds (depth + 1) t').snd = _
        rw [ih t' (childSet d S) (depth + 1) (models_child h hf) hlen' hnot' hS']
        rw [maxLcp_cons_childSet d ds S hS']
        congr 1
        omega

theorem goodState_new (m : Nat) : GoodState (git_oid_shorten_new m) [] := by
  refine ⟨?_, by simp, ?_⟩
  · intro p hp
    constructor
    · intro hpath
      cases p with
      | nil => exact absurd rfl hp
      | cons d ds =>
        rw [show (git_oid_shorten_new m).trie = Trie.node [] from rfl] at hpath
        rw [hasPathAux_cons_none (by simp [findChild])] at hpath
        exact Bool.noConfusion hpath
    · rintro ⟨y, hy, _⟩
      simp at hy
  · show (git_oid_shorten_new m).current_minimum_length =
      max (git_oid_shorten_new m).min_length (pairMax [])
    simp [git_oid_shorten_new, pairMax]

theorem shorten_add_invalid {os : git_oid_shorten} {t : List Nat}
    (hp : parseNibbles GIT_OID_HEXSZ t = none) :
    git_oid_shorten_add os t = (GIT_ENOTOID, os) := by
  unfold git_oid_shorten_add
  rw [hp]

theorem shorten_add_full {os : git_oid_shorten} {t ds : List Nat}
    (hp : parseNibbles GIT_OID_HEXSZ t = some ds)
    (hfull : os.count = CAPACITY_LIMIT) :
    git_oid_shorten_add os t = (GIT_ENOMEM, os) := by
  unfold git_oid_shorten_add
  rw [hp]
  simp [hfull]

theorem shorten_add_ok {os : git_oid_shorten} {t ds : List Nat}
    (hp : parseNibbles GIT_OID_HEXSZ t = some ds)
    (hfull : os.count ≠ CAPACITY_LIMIT) :
    git_oid_shorten_add os t =
      (Int.ofNat (match (insertAux ds 0 os.trie).snd with
          | some k => max os.current_minimum_length k
          | none => os.current_minimum_length),
        ⟨(insertAux ds 0 os.trie).fst, os.min_length,
          (match (insertAux ds 0 os.trie).snd with
            | some k => max os.current_minimum_length k
            | none => os.current_minimum_length), os.count + 1⟩) := by
  unfold git_oid_shorten_add
  rw [hp]
  simp [hfull]

theorem addedOne_invalid {os : git_oid_shorten} {t : List Nat}
    (hp : parseNibbles GIT_OID_HEXSZ t = none) : addedOne os t = [] := by
  unfold addedOne
  rw [hp]

theorem addedOne_full {os : git_oid_shorten} {t ds : List Nat}
    (hp : parseNibbles GIT_OID_HEXSZ t = some ds)
    (hfull : os.count = CAPACITY_LIMIT) : addedOne os t = [] := by
  unfold addedOne
  rw [hp]
  simp [hfull]

theorem addedOne_ok {os : git_oid_shorten} {t ds : List Nat}
    (hp : parseNibbles GIT_OID_HEXSZ t = some ds)
    (hfull : os.count ≠ CAPACITY_LIMIT) : addedOne os t = [ds] := by
  unfold addedOne
  rw [hp]
  simp [hfull]

theorem goodState_add {os : git_oid_shorten} {S : List (List Nat)}
    (t : List Nat) (h : GoodState os S) :
    GoodState (git_oid_shorten_add os t).snd (S ++ addedOne os t) := by
  obtain ⟨hmod, hlen, hcur⟩ := h
  rcases hp : parseNibbles GIT_OID_HEXSZ t with _ | ds
  · rw [shorten_add_invalid hp, addedOne_invalid hp, List.append_nil]
    exact ⟨hmod, hlen, hcur⟩
  · by_cases hfull : os.count = CAPACITY_LIMIT
    · rw [shorten_add_full hp hfull, addedOne_full hp hfull, List.append_nil]
      exact ⟨hmod, hlen, hcur⟩
    · rw [shorten_add_ok hp hfull, addedOne_ok hp hfull]
      have hds40 : ds.length = GIT_OID_HEXSZ := parseNibbles_length _ _ _ hp
      refine ⟨?_, ?_, ?_⟩
      · exact models_insert ds 0 hmod
      · intro y hy
        rcases List.mem_append.mp hy with h1 | h1
        · exact hlen y h1
        · have hyds : y = ds := by simpa using h1
          rw [hyds]
          exact hds40
      · show (match (insertAux ds 0 os.trie).snd with
            | some k => max os.current_minimum_length k
            | none => os.current_minimum_length) =
          max os.min_length (pairMax (S ++ [ds]))
        rw [pairMax_append]
        by_cases hmem : ds ∈ S
        · rw [insertAux_snd_mem ds os.trie S 0 hmod hmem]
          have hle := maxColl_le_pairMax hmem
          show os.current_minimum_length = _
          rw [hcur]
          omega
        · by_cases hS : S = []
          · subst hS
            rw [insertAux_snd_empty hmod ds 0]
            show os.current_minimum_length = _
            rw [hcur]
            simp [pairMax, maxColl]
          · have hlens : ∀ y ∈ S, y.length = ds.length := by
              intro y hy
              rw [hlen y hy, hds40]
            rw [insertAux_snd_new ds os.trie S 0 hmod hlens hmem hS]
            rw [hcur, maxColl_eq_of_not_mem hS hmem]
            show max (max os.min_length (pairMax S)) (0 + maxLcp ds S + 1) = _
            omega

theorem goodState_run : ∀ (ts : List (List Nat)) (os : git_oid_shorten)
    (S : List (List Nat)), GoodState os S →
    GoodState (runAdds os ts).fst (S ++ insertedDigits os ts) := by
  intro ts
  induction ts with
  | nil =>
    intro os S h
    simpa [runAdds, insertedDigits] using h
  | cons t ts ih =>
    intro os S h
    simp only [runAdds, insertedDigits]
    rw [← List.append_assoc]
    exact ih (git_oid_shorten_add os t).snd (S ++ addedOne os t) (goodState_add t h)

theorem add_min_length (os : git_oid_shorten) (t : List Nat) :
    (git_oid_shorten_add os t).snd.min_length = os.min_length := by
  rcases hp : parseNibbles GIT_OID_HEXSZ t with _ | ds
  · rw [shorten_add_invalid hp]
  · by_cases hfull : os.count = CAPACITY_LIMIT
    · rw [shorten_add_full hp hfull]
    · rw [shorten_add_ok hp hfull]

theorem run_min_length : ∀ (ts : List (List Nat)) (os : git_oid_shorten),
    (runAdds os ts).fst.min_length = os.min_length := by
  intro ts
  induction ts with
  | nil => intro os; rfl
  | cons t ts ih =>
    intro os
    simp only [runAdds]
    rw [ih (git_oid_shorten_add os t).snd, add_min_length]

/-- C2: after any run of insertions starting from a fresh controller, the
prefixes of length `current_minimum_length` of the successfully inserted
identifiers are pairwise distinct (for distinct identifiers), and whenever
`current_minimum_length` exceeds the configured floor, two distinct inserted
identifiers collide on their prefixes of length
`current_minimum_length - 1`. -/
theorem shorten_minimal_sufficiency (minL : Nat) (ts : List (List Nat)) :
    (∀ x ∈ insertedDigits (git_oid_shorten_new minL) ts,
      ∀ y ∈ insertedDigits (git_oid_shorten_new minL) ts, x ≠ y →
        x.take (runAdds (git_oid_shorten_new minL) ts).fst.current_minimum_length ≠
          y.take (runAdds (git_oid_shorten_new minL) ts).fst.current_minimum_length) ∧
      ((runAdds (git_oid_shorten_new minL) ts).fst.min_length <
          (runAdds (git_oid_shorten_new minL) ts).fst.current_minimum_length →
        ∃ x ∈ insertedDigits (git_oid_shorten_new minL) ts,
          ∃ y ∈ insertedDigits (git_oid_shorten_new minL) ts, x ≠ y ∧
            x.take
                ((runAdds (git_oid_shorten_new minL) ts).fst.current_minimum_length
                  - 1) =
              y.take
                ((runAdds (git_oid_shorten_new minL) ts).fst.current_minimum_length
                  - 1)) := by
  have hgood := goodState_run ts (git_oid_shorten_new minL) [] (goodState_new minL)
  rw [List.nil_append] at hgood
  obtain ⟨hmod, hlen, hcur⟩ := hgood
  constructor
  · intro x hx y hy hne
    have h1 : lcp x y + 1 ≤ pairMax (insertedDigits (git_oid_shorten_new minL) ts) :=
      pairMax_pair_le hx hy hne
    exact take_ne_of_lcp_lt hne (by rw [hlen x hx, hlen y hy]) (by omega)
  · intro hgt
    have hp0 : pairMax (insertedDigits (git_oid_shorten_new minL) ts) =
        (runAdds (git_oid_shorten_new minL) ts).fst.current_minimum_length ∧
        0 < pairMax (insertedDigits (git_oid_shorten_new minL) ts) := by
      constructor <;> omega
    obtain ⟨x, hx, y, hy, hne, heq⟩ := pairMax_attain hp0.2
    refine ⟨x, hx, y, hy, hne, ?_⟩
    have hl : (runAdds (git_oid_shorten_new minL) ts).fst.current_minimum_length - 1 =
        lcp x y := by omega
    rw [hl]
    exact take_lcp_eq x y

end Git2
